import Mathlib

/-!
Verification of the DockSync task engine (src/task_runner.py) and
notification wrapper (src/notifier.py), as a shallow embedding.

The embedding mirrors the Python code: `executeSteps` models
`TaskRunner._execute_steps` (the per-step while loop with the
stop/continue/retry policies), `executeCommand` models
`TaskRunner._execute_command`, `sendNotificationCall` models
`TaskRunner._send_notification`, `runModel` models `TaskRunner.run`
with its try/except, and `mkNotifier` / `notifierSend` /
`sendTaskSuccess` / `sendTaskFailure` model the `Notifier` class.
The command executor and the notification library are abstracted as
oracles: an `Executor` gives the result of each invocation of
`_execute_command` (indexed by step index and 1-based attempt number,
since retries may see different results), and a `SinkRes` gives the
behaviour of `apprise.Apprise.notify`.
-/

namespace DockSync

/-- The `on_failure` policy of a task: `'stop'`, `'continue'` or `'retry'`. -/
inductive OnFailure
  | stop
  | cont
  | retry
deriving DecidableEq, Repr

/-- A task descriptor as seen by `TaskRunner`: name, ordered step
commands, failure policy and retry count. -/
structure Task where
  name : String
  steps : List String
  onFailure : OnFailure
  retryCount : Nat
deriving DecidableEq, Repr

/-- `max_attempts = self.retry_count if self.on_failure == 'retry' else 1`. -/
def Task.maxAttempts (t : Task) : Nat :=
  if t.onFailure = .retry then t.retryCount else 1

/-- Result of one invocation of `_execute_command` as observed by the
step loop: a normal `(success, output)` return, or a raised exception. -/
inductive ExecResult
  | ok (success : Bool) (output : String)
  | exn (msg : String)
deriving DecidableEq, Repr

/-- Oracle for the command executor: result of attempt `a` (1-based) of
the step at index `i` (0-based). -/
def Executor : Type := Nat → Nat → ExecResult

/-- Observable state threaded through `_execute_steps`: the `all_output`
list, the `time.sleep(2)` backoff events (step index, attempt after
which the wait occurred) and the executor invocations (step index,
attempt number), each in chronological order. -/
structure RunState where
  outputs : List String
  sleeps : List (Nat × Nat)
  invocations : List (Nat × Nat)
deriving DecidableEq, Repr

def RunState.init : RunState := ⟨[], [], []⟩

/-- `f"Step \x7bstep_idx + 1\x7d: \x7bcommand\x7d\n\x7boutput\x7d"`. -/
def stepEntry (stepIdx : Nat) (cmd output : String) : String :=
  "Step " ++ toString (stepIdx + 1) ++ ": " ++ cmd ++ "\n" ++ output

/-- `f"Step \x7bstep_idx + 1\x7d: \x7bcommand\x7d\nError: \x7bstr(e)\x7d"`. -/
def stepErrEntry (stepIdx : Nat) (cmd msg : String) : String :=
  "Step " ++ toString (stepIdx + 1) ++ ": " ++ cmd ++ "\nError: " ++ msg

/-- Result of the inner while loop for one step: fall through to the
next step, or return `(False, joined output)` from `_execute_steps`. -/
inductive LoopRes
  | proceed (s : RunState)
  | halt (s : RunState)
deriving DecidableEq, Repr

/-- State carried by a loop result. -/
def LoopRes.state : LoopRes → RunState
  | .proceed s => s
  | .halt s => s

/-- The inner `while attempt < max_attempts` loop of `_execute_steps`
for the step at index `stepIdx`. `attempt` counts the attempts already
made; `fuel` is the number of attempts still allowed
(`max_attempts - attempt`), so the recursion is structural on `fuel`.
Each iteration increments the attempt counter, invokes the executor,
and follows the Python control flow exactly: on a normal return the
output entry is always appended; success breaks out of the loop; a
failure with attempts remaining sleeps 2 seconds and retries; an
exhausted failure dispatches on the policy (`stop`/`retry` return
failure, `continue` breaks). On an exception the error entry is
appended, then `stop` (or `retry` out of attempts) returns failure,
`continue` breaks, and `retry` with attempts remaining sleeps and
retries. -/
def runStepLoop (exec : Executor) (onF : OnFailure) (cmd : String)
    (stepIdx : Nat) : RunState → Nat → Nat → LoopRes
  | s, _, 0 => .proceed s
  | s, attempt, fuel + 1 =>
    let a := attempt + 1
    let s1 : RunState := { s with invocations := s.invocations ++ [(stepIdx, a)] }
    match exec stepIdx a with
    | .ok true output =>
        .proceed { s1 with outputs := s1.outputs ++ [stepEntry stepIdx cmd output] }
    | .ok false output =>
        let s2 : RunState := { s1 with outputs := s1.outputs ++ [stepEntry stepIdx cmd output] }
        if 0 < fuel then
          runStepLoop exec onF cmd stepIdx
            { s2 with sleeps := s2.sleeps ++ [(stepIdx, a)] } a fuel
        else
          match onF with
          | .stop => .halt s2
          | .cont => .proceed s2
          | .retry => .halt s2
    | .exn msg =>
        let s2 : RunState := { s1 with outputs := s1.outputs ++ [stepErrEntry stepIdx cmd msg] }
        match onF with
        | .stop => .halt s2
        | .cont => .proceed s2
        | .retry =>
          if 0 < fuel then
            runStepLoop exec onF cmd stepIdx
              { s2 with sleeps := s2.sleeps ++ [(stepIdx, a)] } a fuel
          else .halt s2

/-- The outer `for step_idx, step in enumerate(self.steps)` loop of
`_execute_steps`, starting at step index `idx` with state `s`. A `halt`
of the inner loop returns `(False, state)`; falling off the end of the
step list returns `(True, state)`. -/
def runStepsGo (exec : Executor) (onF : OnFailure) (ma : Nat) :
    List String → Nat → RunState → Bool × RunState
  | [], _, s => (true, s)
  | cmd :: rest, idx, s =>
    match runStepLoop exec onF cmd idx s 0 ma with
    | .proceed s' => runStepsGo exec onF ma rest (idx + 1) s'
    | .halt s' => (false, s')

/-- `TaskRunner._execute_steps`: runs every step of the task under the
executor oracle, returning the success flag and the final observable
state. -/
def executeSteps (exec : Executor) (t : Task) : Bool × RunState :=
  runStepsGo exec t.onFailure t.maxAttempts t.steps 0 .init

/-- `"\n\n".join(all_output)`. -/
def aggregatedOutput (s : RunState) : String :=
  String.intercalate "\n\n" s.outputs

/-! ### `TaskRunner._execute_command` -/

/-- Outcome of the underlying `subprocess.run` call: a completed
process (return code, captured stdout, captured stderr), a
`subprocess.TimeoutExpired` after the 1-hour limit, or any other
launch/spawn exception with message `msg`. -/
inductive ProcResult
  | completed (returncode : Int) (stdout stderr : String)
  | timeoutExpired
  | spawnError (msg : String)
deriving DecidableEq, Repr

/-- `TaskRunner._execute_command`, given the behaviour of
`subprocess.run` for this command. Mirrors the Python body: on a
completed process the output is stdout (when non-empty) followed by a
`"\nSTDERR:\n"`-marked section when stderr is non-empty, and success is
`returncode == 0`; the two `except` clauses turn a timeout and any
other exception into `(False, message)` returns. -/
def executeCommand : ProcResult → Bool × String
  | .completed rc out err =>
      let output := (if out == "" then "" else out)
        ++ (if err == "" then "" else "\nSTDERR:\n" ++ err)
      (rc == 0, output)
  | .timeoutExpired => (false, "Command execution timed out after 1 hour")
  | .spawnError msg => (false, "Execution error: " ++ msg)

/-! ### `Notifier` (src/notifier.py) -/

/-- Python character slicing `s[:n]`: the first `n` characters. -/
def pySlice (s : String) (n : Nat) : String :=
  String.mk (s.data.take n)

/-- Behaviour of `apprise.Apprise.notify` for one call: a returned
boolean, or a raised exception. -/
inductive SinkRes
  | ok (b : Bool)
  | exn (msg : String)
deriving DecidableEq, Repr

/-- State built by `Notifier.__init__`: `self.urls = urls or []`, and
the endpoints actually added to the Apprise object (`for url in
self.urls: if url: self.apobj.add(url)` — only non-empty strings). -/
structure NotifierState where
  urls : List String
  endpoints : List String
deriving DecidableEq, Repr

/-- `Notifier.__init__` with argument `urls` (`none` models Python
`None`). -/
def mkNotifier (urls : Option (List String)) : NotifierState :=
  let us : List String :=
    match urls with
    | none => []
    | some l => if l.isEmpty then [] else l
  ⟨us, us.filter (fun u => !(u == ""))⟩

/-- Which path `Notifier.send` took: the early `return True` when
`len(self.urls) == 0`, or an actual delivery attempt through
`self.apobj.notify`. -/
inductive SendPath
  | skippedNoUrls
  | delivered
deriving DecidableEq, Repr

/-- `Notifier.send`, given the library behaviour: with an empty URL
list it returns `True` without attempting delivery; otherwise it calls
`notify` inside a try/except, returning the library result, or `False`
if the library raised. -/
def notifierSend (n : NotifierState) (lib : SinkRes) : SendPath × Bool :=
  if n.urls.length = 0 then (.skippedNoUrls, true)
  else
    match lib with
    | .ok b => (.delivered, b)
    | .exn _ => (.delivered, false)

/-- `Notifier.send_task_success`: builds the `(title, body)` pair that
is passed to `send`. `dur` stands for the formatted
`f"\x7bduration:.2f\x7d"` text. Output is appended only when
`include_output and output` holds, truncated to 500 characters. -/
def sendTaskSuccess (name dur output : String) (includeOutput : Bool) :
    String × String :=
  let title := "✓ Task Complete: " ++ name
  let body := "Task \x27" ++ name ++ "\x27 completed successfully in " ++ dur ++ "s"
  let body :=
    if includeOutput && !(output == "") then
      body ++ "\n\nOutput:\n" ++ pySlice output 500
    else body
  (title, body)

/-- `Notifier.send_task_failure`: builds the `(title, body)` pair that
is passed to `send`. The duration clause is appended when a duration is
given; the error text is appended when `include_output` holds,
truncated to 1000 characters. -/
def sendTaskFailure (name error : String) (dur : Option String)
    (includeOutput : Bool) : String × String :=
  let title := "✗ Task Failed: " ++ name
  let body := "Task \x27" ++ name ++ "\x27 failed"
  let body :=
    match dur with
    | some d => body ++ " after " ++ d ++ "s"
    | none => body
  let body :=
    if includeOutput then body ++ "\n\nError:\n" ++ pySlice error 1000
    else body
  (title, body)

/-! ### `TaskRunner._send_notification` and `TaskRunner.run` -/

/-- The task's `notify_on` setting: `'never'`, `'failure'` (the spec's
FailureOnly) or `'all'`. -/
inductive NotifyOn
  | never
  | failure
  | all
deriving DecidableEq, Repr

/-- The task's `include_output` setting: `'never'`, `'failure'` or
`'all'`. -/
inductive IncludeOutput
  | never
  | failure
  | all
deriving DecidableEq, Repr

/-- A call made by `_send_notification` into the notifier (each of
`send_task_success` / `send_task_failure` invokes the sink's `send`
exactly once, unconditionally). -/
inductive SinkCall
  | taskSuccess (name dur output : String) (includeOutput : Bool)
  | taskFailure (name error dur : String) (includeOutput : Bool)
deriving DecidableEq, Repr

/-- The `include_output` flag carried by a dispatched call. -/
def SinkCall.includeFlag : SinkCall → Bool
  | .taskSuccess _ _ _ b => b
  | .taskFailure _ _ _ b => b

/-- `TaskRunner._send_notification`: decides whether to notify and with
which output-inclusion flag, mirroring the Python guard clauses.
Returns `none` when no call into the notifier is made. -/
def sendNotificationCall (notifyOn : NotifyOn) (inc : IncludeOutput)
    (name : String) (success : Bool) (output dur : String) : Option SinkCall :=
  if notifyOn == .never then none
  else if notifyOn == .failure && success then none
  else
    let shouldInclude :=
      if inc == .all then true
      else if inc == .failure && !success then true
      else false
    if success then some (.taskSuccess name dur output shouldInclude)
    else some (.taskFailure name output dur shouldInclude)

/-- Python `try: body except Exception as e: handler e`, with
exceptions as `Except.error`. -/
def pyTry {α : Type} (body : Except String α)
    (handler : String → Except String α) : Except String α :=
  match body with
  | .ok a => a |> Except.ok
  | .error e => handler e

/-- `TaskRunner.run`: runs the step phase (whose whole behaviour,
including any raised exception, is the `stepsRes` argument), and inside
a try/except dispatches the notification; any exception from the step
phase is caught and turned into a failure notification whose output is
the error text. The result is the notification decision; an
`Except.error` result would model an exception propagating to the
scheduler. -/
def runModel (notifyOn : NotifyOn) (inc : IncludeOutput) (name : String)
    (stepsRes : Except String (Bool × String)) (dur : String) :
    Except String (Option SinkCall) :=
  pyTry
    (do
      let (success, output) ← stepsRes
      pure (sendNotificationCall notifyOn inc name success output dur))
    (fun e => pure (sendNotificationCall notifyOn inc name false e dur))

/-! ### Helper list shapes used by the theorems -/

/-- `[(i, 1), (i + 1, 1), ..., (i + n - 1, 1)]`: one first-attempt
executor invocation for each of `n` consecutive steps starting at
index `i`. -/
def firstAttempts : Nat → Nat → List (Nat × Nat)
  | _, 0 => []
  | i, n + 1 => (i, 1) :: firstAttempts (i + 1) n

/-- `[(i, a + 1), (i, a + 2), ..., (i, a + n)]`: `n` consecutive
attempts of the step at index `i`, after `a` attempts already made. -/
def attemptsFrom (i a : Nat) : Nat → List (Nat × Nat)
  | 0 => []
  | n + 1 => (i, a + 1) :: attemptsFrom i (a + 1) n

/-- Output entries of a run of consecutive first-attempt successes
starting at step index `i`, where step `j` succeeds with output
`outs j`. -/
def okEntries (outs : Nat → String) : Nat → List String → List String
  | _, [] => []
  | i, c :: cs => stepEntry i c (outs i) :: okEntries outs (i + 1) cs

/-- Output entries of `n` consecutive failing attempts of the step at
index `i` with command `cmd`, after `a` attempts already made, where
attempt `j` returns output `outs j`. -/
def failEntriesFrom (cmd : String) (i : Nat) (outs : Nat → String) (a : Nat) :
    Nat → List String
  | 0 => []
  | n + 1 => stepEntry i cmd (outs (a + 1)) :: failEntriesFrom cmd i outs (a + 1) n

/-! ## Theorems -/

/-- Inner loop under the `continue` policy with a single allowed
attempt: one executor invocation, no sleep, one appended output entry,
and the loop always falls through to the next step. -/
theorem contLoop_one (exec : Executor) (cmd : String) (i : Nat) (s : RunState) :
    ∃ entry, runStepLoop exec .cont cmd i s 0 1 =
      .proceed ⟨s.outputs ++ [entry], s.sleeps, s.invocations ++ [(i, 1)]⟩ := by
  cases h : exec i 1 with
  | ok success output =>
    cases success
    · exact ⟨stepEntry i cmd output, by simp [runStepLoop, h]⟩
    · exact ⟨stepEntry i cmd output, by simp [runStepLoop, h]⟩
  | exn msg =>
    exact ⟨stepErrEntry i cmd msg, by simp [runStepLoop, h]⟩

/-- Outer loop under the `continue` policy: every remaining step gets
exactly one first-attempt invocation, no sleeps are added, and the
result is success. -/
theorem contSteps (exec : Executor) (steps : List String) :
    ∀ (i : Nat) (s : RunState),
      ∃ entries, runStepsGo exec .cont 1 steps i s =
        (true, ⟨s.outputs ++ entries, s.sleeps,
                s.invocations ++ firstAttempts i steps.length⟩) := by
  induction steps with
  | nil =>
    intro i s
    exact ⟨[], by simp [runStepsGo, firstAttempts]⟩
  | cons c cs ih =>
    intro i s
    obtain ⟨entry, hloop⟩ := contLoop_one exec c i s
    obtain ⟨entries, hrest⟩ :=
      ih (i + 1) ⟨s.outputs ++ [entry], s.sleeps, s.invocations ++ [(i, 1)]⟩
    refine ⟨entry :: entries, ?_⟩
    simp only [runStepsGo, hloop, hrest, firstAttempts, List.length_cons]
    simp

/-- C1: under `onFailure = Continue` every step is attempted exactly
once (one first-attempt executor invocation per step, in order,
whatever the executor does), no backoff wait occurs, and the run
outcome is success. -/
theorem claim_C1 (exec : Executor) (name : String) (steps : List String)
    (rc : Nat) :
    (executeSteps exec ⟨name, steps, .cont, rc⟩).1 = true ∧
    (executeSteps exec ⟨name, steps, .cont, rc⟩).2.invocations =
      firstAttempts 0 steps.length ∧
    (executeSteps exec ⟨name, steps, .cont, rc⟩).2.sleeps = [] := by
  obtain ⟨entries, h⟩ := contSteps exec steps 0 .init
  have he : executeSteps exec ⟨name, steps, .cont, rc⟩ =
      runStepsGo exec .cont 1 steps 0 .init := rfl
  rw [he, h]
  simp [RunState.init]

/-- With a single allowed attempt, the `retry` and `stop` policies take
identical paths through the inner loop. -/
theorem retry1_stop_loop (exec : Executor) (cmd : String) (i : Nat)
    (s : RunState) (a : Nat) :
    runStepLoop exec .retry cmd i s a 1 = runStepLoop exec .stop cmd i s a 1 := by
  cases h : exec i (a + 1) with
  | ok success output => cases success <;> simp [runStepLoop, h]
  | exn msg => simp [runStepLoop, h]

/-- With a single allowed attempt, the `retry` and `stop` policies take
identical paths through the whole step loop. -/
theorem retry1_stop_go (exec : Executor) : ∀ (steps : List String) (i : Nat)
    (s : RunState),
    runStepsGo exec .retry 1 steps i s = runStepsGo exec .stop 1 steps i s := by
  intro steps
  induction steps with
  | nil => intro i s; rfl
  | cons c cs ih =>
    intro i s
    simp only [runStepsGo, retry1_stop_loop]
    cases runStepLoop exec .stop c i s 0 1 with
    | proceed s' => exact ih (i + 1) s'
    | halt s' => rfl

/-- With a single allowed attempt, the inner loop performs exactly one
executor invocation and never sleeps. -/
theorem loop_one_state (exec : Executor) (onF : OnFailure) (cmd : String)
    (i : Nat) (s : RunState) (a : Nat) :
    ((runStepLoop exec onF cmd i s a 1).state).sleeps = s.sleeps ∧
    ((runStepLoop exec onF cmd i s a 1).state).invocations =
      s.invocations ++ [(i, a + 1)] := by
  cases h : exec i (a + 1) with
  | ok success output =>
    cases success <;> cases onF <;> simp [runStepLoop, h, LoopRes.state]
  | exn msg =>
    cases onF <;> simp [runStepLoop, h, LoopRes.state]

/-- With a single allowed attempt, the step loop never sleeps and every
invocation it adds is a first attempt. -/
theorem go_one_state (exec : Executor) (onF : OnFailure) :
    ∀ (steps : List String) (i : Nat) (s : RunState),
      ((runStepsGo exec onF 1 steps i s).2).sleeps = s.sleeps ∧
      (∀ p ∈ ((runStepsGo exec onF 1 steps i s).2).invocations,
          p ∈ s.invocations ∨ p.2 = 1) := by
  intro steps
  induction steps with
  | nil =>
    intro i s
    exact ⟨rfl, fun p hp => Or.inl hp⟩
  | cons c cs ih =>
    intro i s
    have hl := loop_one_state exec onF c i s 0
    cases hE : runStepLoop exec onF c i s 0 1 with
    | proceed s' =>
      rw [hE] at hl
      simp only [LoopRes.state] at hl
      have hgo := ih (i + 1) s'
      refine ⟨?_, ?_⟩
      · simp only [runStepsGo, hE]
        rw [hgo.1, hl.1]
      · intro p hp
        simp only [runStepsGo, hE] at hp
        rcases hgo.2 p hp with h1 | h1
        · rw [hl.2] at h1
          rcases List.mem_append.1 h1 with h2 | h2
          · exact Or.inl h2
          · right
            simp at h2
            rw [h2]
        · exact Or.inr h1
    | halt s' =>
      rw [hE] at hl
      simp only [LoopRes.state] at hl
      refine ⟨?_, ?_⟩
      · simp only [runStepsGo, hE]
        exact hl.1
      · intro p hp
        simp only [runStepsGo, hE] at hp
        rw [hl.2] at hp
        rcases List.mem_append.1 hp with h2 | h2
        · exact Or.inl h2
        · right
          simp at h2
          rw [h2]

/-- Outer loop under the `stop` policy: steps before the failing one
succeed on their first attempt and contribute their entries; the first
step whose command fails halts the run with outcome `false`,
invocations stopping at that step. -/
theorem stopSteps (exec : Executor) (cmd : String) (rest : List String)
    (outs : Nat → String) (outK : String) :
    ∀ (front : List String) (i : Nat) (s : RunState),
      (∀ j, i ≤ j → j < i + front.length → exec j 1 = .ok true (outs j)) →
      exec (i + front.length) 1 = .ok false outK →
      runStepsGo exec .stop 1 (front ++ cmd :: rest) i s =
        (false, ⟨s.outputs ++ okEntries outs i front
                   ++ [stepEntry (i + front.length) cmd outK],
                 s.sleeps,
                 s.invocations ++ firstAttempts i (front.length + 1)⟩) := by
  intro front
  induction front with
  | nil =>
    intro i s _ hfail
    simp only [List.length_nil, Nat.add_zero] at hfail
    simp [runStepsGo, runStepLoop, hfail, okEntries, firstAttempts]
  | cons c cs ih =>
    intro i s hpre hfail
    have hc : exec i 1 = .ok true (outs i) := hpre i le_rfl (by simp)
    have hloop : runStepLoop exec .stop c i s 0 1 =
        .proceed ⟨s.outputs ++ [stepEntry i c (outs i)], s.sleeps,
                  s.invocations ++ [(i, 1)]⟩ := by
      simp [runStepLoop, hc]
    have hidx : i + (c :: cs).length = (i + 1) + cs.length := by
      simp only [List.length_cons]
      omega
    have hpre' : ∀ j, i + 1 ≤ j → j < (i + 1) + cs.length →
        exec j 1 = .ok true (outs j) := by
      intro j h1 h2
      refine hpre j (by omega) ?_
      simp only [List.length_cons]
      omega
    have hfail' : exec ((i + 1) + cs.length) 1 = .ok false outK := by
      rw [← hidx]
      exact hfail
    have hrest := ih (i + 1)
      ⟨s.outputs ++ [stepEntry i c (outs i)], s.sleeps, s.invocations ++ [(i, 1)]⟩
      hpre' hfail'
    rw [hidx]
    simp only [List.cons_append, runStepsGo, hloop, List.append_eq]
    rw [hrest]
    simp [okEntries, firstAttempts]

/-- C3: under `onFailure = Stop`, when every step before index `k`
(the length of `front`) succeeds on its first attempt and step `k`
fails, the run halts at step `k`: the outcome is failure, the
aggregated output entries are exactly those of the attempted steps
`0..k`, no backoff occurs, and the invocations stop at step `k` — no
later step is executed. -/
theorem claim_C3 (exec : Executor) (name : String) (rc : Nat)
    (front : List String) (cmd : String) (rest : List String)
    (outs : Nat → String) (outK : String)
    (hpre : ∀ j, j < front.length → exec j 1 = .ok true (outs j))
    (hfail : exec front.length 1 = .ok false outK) :
    executeSteps exec ⟨name, front ++ cmd :: rest, .stop, rc⟩ =
      (false, ⟨okEntries outs 0 front ++ [stepEntry front.length cmd outK],
               [],
               firstAttempts 0 (front.length + 1)⟩) ∧
    (∀ p ∈ (executeSteps exec ⟨name, front ++ cmd :: rest, .stop, rc⟩).2.invocations,
        p.1 ≤ front.length) := by
  have he : executeSteps exec ⟨name, front ++ cmd :: rest, .stop, rc⟩ =
      runStepsGo exec .stop 1 (front ++ cmd :: rest) 0 .init := rfl
  have h := stopSteps exec cmd rest outs outK front 0 .init
    (fun j _ hj => hpre j (by omega)) (by simpa using hfail)
  rw [he, h]
  refine ⟨by simp [RunState.init], ?_⟩
  intro p hp
  simp only [RunState.init, List.nil_append] at hp
  have hfa : ∀ (n i0 : Nat) (q : Nat × Nat), q ∈ firstAttempts i0 n →
      q.1 < i0 + n := by
    intro n
    induction n with
    | zero => intro i0 q hq; simp [firstAttempts] at hq
    | succ m ihm =>
      intro i0 q hq
      simp only [firstAttempts, List.mem_cons] at hq
      rcases hq with hq | hq
      · rw [hq]
        omega
      · have := ihm (i0 + 1) q hq
        omega
  have := hfa (front.length + 1) 0 p hp
  omega

/-- C3 witness: three steps under `stop`; step 0 succeeds, step 1
fails, step 2 is never attempted. -/
theorem claim_C3_witness :
    executeSteps
        (fun i _ => if i = 0 then ExecResult.ok true "A" else ExecResult.ok false "B")
        ⟨"t", ["c0", "c1", "c2"], .stop, 3⟩ =
      (false, ⟨okEntries (fun _ => "A") 0 ["c0"] ++ [stepEntry 1 "c1" "B"], [],
               firstAttempts 0 2⟩) :=
  (claim_C3
    (fun i _ => if i = 0 then ExecResult.ok true "A" else ExecResult.ok false "B")
    "t" 3 ["c0"] "c1" ["c2"] (fun _ => "A") "B"
    (by decide) (by decide)).1

/-- One iteration of the inner loop on a successful attempt: the step
completes and the loop exits to the next step. -/
theorem loop_ok_true_step (exec : Executor) (onF : OnFailure) (cmd : String)
    (i a fuel : Nat) (s : RunState) (out : String)
    (h1 : exec i (a + 1) = .ok true out) :
    runStepLoop exec onF cmd i s a (fuel + 1) =
      .proceed ⟨s.outputs ++ [stepEntry i cmd out], s.sleeps,
                s.invocations ++ [(i, a + 1)]⟩ := by
  simp [runStepLoop, h1]

/-- One iteration of the inner loop on a failed attempt with attempts
remaining: the loop records the entry, sleeps, and retries. -/
theorem loop_ok_false_more (exec : Executor) (onF : OnFailure) (cmd : String)
    (i a fuel : Nat) (s : RunState) (out : String)
    (h1 : exec i (a + 1) = .ok false out) (hf : 0 < fuel) :
    runStepLoop exec onF cmd i s a (fuel + 1) =
      runStepLoop exec onF cmd i
        ⟨s.outputs ++ [stepEntry i cmd out], s.sleeps ++ [(i, a + 1)],
         s.invocations ++ [(i, a + 1)]⟩ (a + 1) fuel := by
  simp [runStepLoop, h1, hf]

/-- Final failed attempt under `retry`: the loop halts the task. -/
theorem loop_retry_false_last (exec : Executor) (cmd : String)
    (i a : Nat) (s : RunState) (out : String)
    (h1 : exec i (a + 1) = .ok false out) :
    runStepLoop exec .retry cmd i s a 1 =
      .halt ⟨s.outputs ++ [stepEntry i cmd out], s.sleeps,
             s.invocations ++ [(i, a + 1)]⟩ := by
  simp [runStepLoop, h1]

/-- Under `retry`, a step that fails on all of its remaining `n + 1`
attempts halts the task, with a backoff sleep after every attempt but
the last. -/
theorem retryFailAll (exec : Executor) (cmd : String) (i : Nat)
    (outs : Nat → String) :
    ∀ (n a : Nat) (s : RunState),
      (∀ j, a < j → j ≤ a + (n + 1) → exec i j = .ok false (outs j)) →
      runStepLoop exec .retry cmd i s a (n + 1) =
        .halt ⟨s.outputs ++ failEntriesFrom cmd i outs a (n + 1),
               s.sleeps ++ attemptsFrom i a n,
               s.invocations ++ attemptsFrom i a (n + 1)⟩ := by
  intro n
  induction n with
  | zero =>
    intro a s h
    have h1 : exec i (a + 1) = .ok false (outs (a + 1)) :=
      h (a + 1) (by omega) (by omega)
    rw [loop_retry_false_last exec cmd i a s (outs (a + 1)) h1]
    simp [failEntriesFrom, attemptsFrom]
  | succ m ihm =>
    intro a s h
    have h1 : exec i (a + 1) = .ok false (outs (a + 1)) :=
      h (a + 1) (by omega) (by omega)
    rw [loop_ok_false_more exec .retry cmd i a (m + 1) s (outs (a + 1)) h1
      (by omega)]
    rw [ihm (a + 1)
      ⟨s.outputs ++ [stepEntry i cmd (outs (a + 1))], s.sleeps ++ [(i, a + 1)],
       s.invocations ++ [(i, a + 1)]⟩
      (fun j hj1 hj2 => h j (by omega) (by omega))]
    simp [failEntriesFrom, attemptsFrom]

/-- Under `retry`, a step that fails on its next `n` attempts and then
succeeds exits the loop to the next step, with a backoff sleep after
each of the `n` failed attempts. -/
theorem retryFailThenOk (exec : Executor) (cmd : String) (i : Nat)
    (outs : Nat → String) (okOut : String) :
    ∀ (n a fuel : Nat) (s : RunState),
      n + 1 ≤ fuel →
      (∀ j, a < j → j ≤ a + n → exec i j = .ok false (outs j)) →
      exec i (a + n + 1) = .ok true okOut →
      runStepLoop exec .retry cmd i s a fuel =
        .proceed ⟨s.outputs ++ failEntriesFrom cmd i outs a n
                    ++ [stepEntry i cmd okOut],
                  s.sleeps ++ attemptsFrom i a n,
                  s.invocations ++ attemptsFrom i a (n + 1)⟩ := by
  intro n
  induction n with
  | zero =>
    intro a fuel s hf _ hok
    obtain ⟨f, rfl⟩ : ∃ f, fuel = f + 1 := ⟨fuel - 1, by omega⟩
    rw [loop_ok_true_step exec .retry cmd i a f s okOut (by simpa using hok)]
    simp [failEntriesFrom, attemptsFrom]
  | succ m ihm =>
    intro a fuel s hf hfails hok
    obtain ⟨f, rfl⟩ : ∃ f, fuel = f + 1 := ⟨fuel - 1, by omega⟩
    have h1 : exec i (a + 1) = .ok false (outs (a + 1)) :=
      hfails (a + 1) (by omega) (by omega)
    rw [loop_ok_false_more exec .retry cmd i a f s (outs (a + 1)) h1 (by omega)]
    rw [ihm (a + 1) f
      ⟨s.outputs ++ [stepEntry i cmd (outs (a + 1))], s.sleeps ++ [(i, a + 1)],
       s.invocations ++ [(i, a + 1)]⟩
      (by omega)
      (fun j hj1 hj2 => hfails j (by omega) (by omega))
      (by
        have hidx : a + 1 + m + 1 = a + (m + 1) + 1 := by omega
        rw [hidx]
        exact hok)]
    simp [failEntriesFrom, attemptsFrom]

/-- Traversal of a run of steps that all succeed on their first
attempt: each contributes one entry and one invocation, and control
reaches the tail of the step list. -/
theorem successFront (exec : Executor) (onF : OnFailure) (ma : Nat)
    (outs : Nat → String) (hma : 1 ≤ ma) :
    ∀ (front : List String) (tail : List String) (i : Nat) (s : RunState),
      (∀ j, i ≤ j → j < i + front.length → exec j 1 = .ok true (outs j)) →
      runStepsGo exec onF ma (front ++ tail) i s =
        runStepsGo exec onF ma tail (i + front.length)
          ⟨s.outputs ++ okEntries outs i front, s.sleeps,
           s.invocations ++ firstAttempts i front.length⟩ := by
  intro front
  induction front with
  | nil =>
    intro tail i s _
    simp [okEntries, firstAttempts]
  | cons c cs ih =>
    intro tail i s h
    obtain ⟨f, rfl⟩ : ∃ f, ma = f + 1 := ⟨ma - 1, by omega⟩
    have hc : exec i 1 = .ok true (outs i) := h i le_rfl (by simp)
    have hloop := loop_ok_true_step exec onF c i 0 f s (outs i) hc
    simp only [List.cons_append, runStepsGo, hloop, List.append_eq]
    rw [ih tail (i + 1)
      ⟨s.outputs ++ [stepEntry i c (outs i)], s.sleeps, s.invocations ++ [(i, 1)]⟩
      (fun j hj1 hj2 => h j (by omega) (by simp only [List.length_cons]; omega))]
    have hidx : i + (c :: cs).length = (i + 1) + cs.length := by
      simp only [List.length_cons]
      omega
    rw [hidx]
    simp [okEntries, firstAttempts]

/-- A whole step list of first-attempt successes yields a successful
run. -/
theorem successAll (exec : Executor) (onF : OnFailure) (ma : Nat)
    (outs : Nat → String) (hma : 1 ≤ ma) (steps : List String) (i : Nat)
    (s : RunState)
    (h : ∀ j, i ≤ j → j < i + steps.length → exec j 1 = .ok true (outs j)) :
    runStepsGo exec onF ma steps i s =
      (true, ⟨s.outputs ++ okEntries outs i steps, s.sleeps,
              s.invocations ++ firstAttempts i steps.length⟩) := by
  have hfr := successFront exec onF ma outs hma steps [] i s h
  rw [List.append_nil] at hfr
  rw [hfr]
  rfl

/-- Members of `attemptsFrom i a n` are exactly the attempts
`a + 1 .. a + n` of step `i`. -/
theorem attemptsFrom_mem (i : Nat) :
    ∀ (n a : Nat) (p : Nat × Nat), p ∈ attemptsFrom i a n →
      p.1 = i ∧ a + 1 ≤ p.2 ∧ p.2 ≤ a + n := by
  intro n
  induction n with
  | zero =>
    intro a p hp
    simp [attemptsFrom] at hp
  | succ m ihm =>
    intro a p hp
    simp only [attemptsFrom, List.mem_cons] at hp
    rcases hp with hp | hp
    · rw [hp]
      exact ⟨rfl, by omega, by omega⟩
    · obtain ⟨h1, h2, h3⟩ := ihm (a + 1) p hp
      exact ⟨h1, by omega, by omega⟩

/-- Conversely, every attempt `a + 1 .. a + n` of step `i` is a member
of `attemptsFrom i a n`. -/
theorem attemptsFrom_mem_of (i : Nat) :
    ∀ (n a : Nat) (p : Nat × Nat), p.1 = i → a + 1 ≤ p.2 → p.2 ≤ a + n →
      p ∈ attemptsFrom i a n := by
  intro n
  induction n with
  | zero =>
    intro a p _ h2 h3
    omega
  | succ m ihm =>
    intro a p h1 h2 h3
    simp only [attemptsFrom, List.mem_cons]
    by_cases hc : p.2 = a + 1
    · left
      obtain ⟨x, y⟩ := p
      simp only at h1 hc
      rw [h1, hc]
    · right
      exact ihm (a + 1) p h1 (by omega) (by omega)

/-- Shape of one inner loop run: it makes some number `m` of attempts
(at least one when allowed any), appending invocations
`a + 1 .. a + m` and sleeping exactly after attempts
`a + 1 .. a + m - 1` of the same step. -/
theorem loopShape (exec : Executor) (onF : OnFailure) (cmd : String)
    (i : Nat) :
    ∀ (fuel a : Nat) (s : RunState),
      ∃ m, m ≤ fuel ∧ (1 ≤ fuel → 1 ≤ m) ∧
        ((runStepLoop exec onF cmd i s a fuel).state).sleeps =
          s.sleeps ++ attemptsFrom i a (m - 1) ∧
        ((runStepLoop exec onF cmd i s a fuel).state).invocations =
          s.invocations ++ attemptsFrom i a m := by
  intro fuel
  induction fuel with
  | zero =>
    intro a s
    exact ⟨0, le_rfl, by omega,
      by simp [runStepLoop, LoopRes.state, attemptsFrom],
      by simp [runStepLoop, LoopRes.state, attemptsFrom]⟩
  | succ f ihf =>
    intro a s
    cases hE : exec i (a + 1) with
    | ok success output =>
      cases success with
      | true =>
        refine ⟨1, by omega, fun _ => le_rfl, ?_, ?_⟩
        · rw [loop_ok_true_step exec onF cmd i a f s output hE]
          simp [LoopRes.state, attemptsFrom]
        · rw [loop_ok_true_step exec onF cmd i a f s output hE]
          simp [LoopRes.state, attemptsFrom]
      | false =>
        by_cases hf : 0 < f
        · obtain ⟨m, hm1, hm2, hs, hi⟩ := ihf (a + 1)
            ⟨s.outputs ++ [stepEntry i cmd output], s.sleeps ++ [(i, a + 1)],
             s.invocations ++ [(i, a + 1)]⟩
          have hm : 1 ≤ m := hm2 hf
          obtain ⟨m', rfl⟩ : ∃ m', m = m' + 1 := ⟨m - 1, by omega⟩
          refine ⟨m' + 1 + 1, by omega, by omega, ?_, ?_⟩
          · rw [loop_ok_false_more exec onF cmd i a f s output hE hf, hs]
            simp [attemptsFrom]
          · rw [loop_ok_false_more exec onF cmd i a f s output hE hf, hi]
            simp [attemptsFrom]
        · have hf0 : f = 0 := by omega
          subst hf0
          refine ⟨1, le_rfl, fun _ => le_rfl, ?_, ?_⟩
          · cases onF <;> simp [runStepLoop, hE, LoopRes.state, attemptsFrom]
          · cases onF <;> simp [runStepLoop, hE, LoopRes.state, attemptsFrom]
    | exn msg =>
      cases onF with
      | retry =>
        by_cases hf : 0 < f
        · obtain ⟨m, hm1, hm2, hs, hi⟩ := ihf (a + 1)
            ⟨s.outputs ++ [stepErrEntry i cmd msg], s.sleeps ++ [(i, a + 1)],
             s.invocations ++ [(i, a + 1)]⟩
          have hm : 1 ≤ m := hm2 hf
          obtain ⟨m', rfl⟩ : ∃ m', m = m' + 1 := ⟨m - 1, by omega⟩
          refine ⟨m' + 1 + 1, by omega, by omega, ?_, ?_⟩
          · rw [show runStepLoop exec .retry cmd i s a (f + 1) =
                runStepLoop exec .retry cmd i
                  ⟨s.outputs ++ [stepErrEntry i cmd msg], s.sleeps ++ [(i, a + 1)],
                   s.invocations ++ [(i, a + 1)]⟩ (a + 1) f from
              by simp [runStepLoop, hE, hf], hs]
            simp [attemptsFrom]
          · rw [show runStepLoop exec .retry cmd i s a (f + 1) =
                runStepLoop exec .retry cmd i
                  ⟨s.outputs ++ [stepErrEntry i cmd msg], s.sleeps ++ [(i, a + 1)],
                   s.invocations ++ [(i, a + 1)]⟩ (a + 1) f from
              by simp [runStepLoop, hE, hf], hi]
            simp [attemptsFrom]
        · have hf0 : f = 0 := by omega
          subst hf0
          refine ⟨1, le_rfl, fun _ => le_rfl, ?_, ?_⟩
          · simp [runStepLoop, hE, LoopRes.state, attemptsFrom]
          · simp [runStepLoop, hE, LoopRes.state, attemptsFrom]
      | stop =>
        refine ⟨1, by omega, fun _ => le_rfl, ?_, ?_⟩
        · simp [runStepLoop, hE, LoopRes.state, attemptsFrom]
        · simp [runStepLoop, hE, LoopRes.state, attemptsFrom]
      | cont =>
        refine ⟨1, by omega, fun _ => le_rfl, ?_, ?_⟩
        · simp [runStepLoop, hE, LoopRes.state, attemptsFrom]
        · simp [runStepLoop, hE, LoopRes.state, attemptsFrom]

/-- The step loop preserves the invariant that every recorded backoff
sleep `(i, a)` lies between two invocations `(i, a)` and `(i, a + 1)`
of the same step. -/
theorem goSleepInv (exec : Executor) (onF : OnFailure) (ma : Nat) :
    ∀ (steps : List String) (i : Nat) (s : RunState),
      (∀ ev ∈ s.sleeps,
          ev ∈ s.invocations ∧ (ev.1, ev.2 + 1) ∈ s.invocations) →
      ∀ ev ∈ ((runStepsGo exec onF ma steps i s).2).sleeps,
        ev ∈ ((runStepsGo exec onF ma steps i s).2).invocations ∧
        (ev.1, ev.2 + 1) ∈ ((runStepsGo exec onF ma steps i s).2).invocations := by
  intro steps
  induction steps with
  | nil =>
    intro i s h
    exact h
  | cons c cs ih =>
    intro i s h
    obtain ⟨m, _, _, hs, hi⟩ := loopShape exec onF c i ma 0 s
    have hnew : ∀ ev ∈ ((runStepLoop exec onF c i s 0 ma).state).sleeps,
        ev ∈ ((runStepLoop exec onF c i s 0 ma).state).invocations ∧
        (ev.1, ev.2 + 1) ∈ ((runStepLoop exec onF c i s 0 ma).state).invocations := by
      intro ev hev
      rw [hs] at hev
      rw [hi]
      rcases List.mem_append.1 hev with hev | hev
      · obtain ⟨h1, h2⟩ := h ev hev
        exact ⟨List.mem_append_left _ h1, List.mem_append_left _ h2⟩
      · obtain ⟨he1, he2, he3⟩ := attemptsFrom_mem i (m - 1) 0 ev hev
        refine ⟨List.mem_append_right _ ?_, List.mem_append_right _ ?_⟩
        · exact attemptsFrom_mem_of i m 0 ev he1 he2 (by omega)
        · exact attemptsFrom_mem_of i m 0 (ev.1, ev.2 + 1) he1 (by omega)
            (by simp only []; omega)
    cases hE : runStepLoop exec onF c i s 0 ma with
    | proceed s' =>
      rw [hE] at hnew
      simp only [LoopRes.state] at hnew
      simp only [runStepsGo, hE]
      exact ih (i + 1) s' hnew
    | halt s' =>
      rw [hE] at hnew
      simp only [LoopRes.state] at hnew
      simp only [runStepsGo, hE]
      exact hnew

/-- C2: under `onFailure = Retry` with `retryCount = N ≥ 1`, a step
whose command fails on every one of its `N` attempts causes exactly the
`N` invocations `(k, 1) .. (k, N)` and exactly the `N - 1` backoff
waits after attempts `1 .. N - 1` of that same step, the outcome is
failure and no later step appears among the invocations; a step that
fails on attempts `1 .. N - 1` and succeeds on attempt `N` yields task
success with exactly the same `N - 1` backoff waits; and in every run
whatsoever a backoff wait occurs only between two attempts of the same
step, never between distinct steps. -/
theorem claim_C2 :
    (∀ (exec : Executor) (name : String) (N : Nat) (front : List String)
        (cmd : String) (rest : List String) (outs0 outsK : Nat → String),
        1 ≤ N →
        (∀ j, j < front.length → exec j 1 = .ok true (outs0 j)) →
        (∀ a, 1 ≤ a → a ≤ N → exec front.length a = .ok false (outsK a)) →
        executeSteps exec ⟨name, front ++ cmd :: rest, .retry, N⟩ =
          (false,
           ⟨okEntries outs0 0 front
              ++ failEntriesFrom cmd front.length outsK 0 N,
            attemptsFrom front.length 0 (N - 1),
            firstAttempts 0 front.length ++ attemptsFrom front.length 0 N⟩)) ∧
    (∀ (exec : Executor) (name : String) (N : Nat) (front : List String)
        (cmd : String) (rest : List String) (outs0 outsK outs1 : Nat → String)
        (okOut : String),
        1 ≤ N →
        (∀ j, j < front.length → exec j 1 = .ok true (outs0 j)) →
        (∀ a, 1 ≤ a → a ≤ N - 1 → exec front.length a = .ok false (outsK a)) →
        exec front.length N = .ok true okOut →
        (∀ j, front.length + 1 ≤ j → j < front.length + 1 + rest.length →
            exec j 1 = .ok true (outs1 j)) →
        executeSteps exec ⟨name, front ++ cmd :: rest, .retry, N⟩ =
          (true,
           ⟨okEntries outs0 0 front
              ++ (failEntriesFrom cmd front.length outsK 0 (N - 1)
                   ++ [stepEntry front.length cmd okOut])
              ++ okEntries outs1 (front.length + 1) rest,
            attemptsFrom front.length 0 (N - 1),
            (firstAttempts 0 front.length ++ attemptsFrom front.length 0 N)
              ++ firstAttempts (front.length + 1) rest.length⟩)) ∧
    (∀ (exec : Executor) (t : Task) (ev : Nat × Nat),
        ev ∈ (executeSteps exec t).2.sleeps →
        ev ∈ (executeSteps exec t).2.invocations ∧
        (ev.1, ev.2 + 1) ∈ (executeSteps exec t).2.invocations) := by
  refine ⟨?_, ?_, ?_⟩
  · intro exec name N front cmd rest outs0 outsK hN hpre hfails
    obtain ⟨M, rfl⟩ : ∃ M, N = M + 1 := ⟨N - 1, by omega⟩
    have he : executeSteps exec ⟨name, front ++ cmd :: rest, .retry, M + 1⟩ =
        runStepsGo exec .retry (M + 1) (front ++ cmd :: rest) 0 .init := rfl
    rw [he]
    rw [successFront exec .retry (M + 1) outs0 (by omega) front (cmd :: rest)
      0 .init (fun j h1 h2 => hpre j (by omega))]
    simp only [Nat.zero_add]
    have hloop := retryFailAll exec cmd front.length outsK M 0
      ⟨RunState.init.outputs ++ okEntries outs0 0 front, RunState.init.sleeps,
       RunState.init.invocations ++ firstAttempts 0 front.length⟩
      (fun j hj1 hj2 => hfails j (by omega) (by omega))
    simp only [runStepsGo, hloop]
    simp [RunState.init]
  · intro exec name N front cmd rest outs0 outsK outs1 okOut hN hpre hfails hok hrest
    obtain ⟨M, rfl⟩ : ∃ M, N = M + 1 := ⟨N - 1, by omega⟩
    have he : executeSteps exec ⟨name, front ++ cmd :: rest, .retry, M + 1⟩ =
        runStepsGo exec .retry (M + 1) (front ++ cmd :: rest) 0 .init := rfl
    rw [he]
    rw [successFront exec .retry (M + 1) outs0 (by omega) front (cmd :: rest)
      0 .init (fun j h1 h2 => hpre j (by omega))]
    simp only [Nat.zero_add]
    have hloop := retryFailThenOk exec cmd front.length outsK okOut M 0 (M + 1)
      ⟨RunState.init.outputs ++ okEntries outs0 0 front, RunState.init.sleeps,
       RunState.init.invocations ++ firstAttempts 0 front.length⟩
      le_rfl
      (fun j hj1 hj2 => hfails j (by omega) (by omega))
      (by simpa using hok)
    simp only [runStepsGo, hloop]
    rw [successAll exec .retry (M + 1) outs1 (by omega) rest (front.length + 1) _
      (fun j hj1 hj2 => hrest j (by omega) (by omega))]
    simp [RunState.init]
  · intro exec t ev hev
    have he : executeSteps exec t =
        runStepsGo exec t.onFailure t.maxAttempts t.steps 0 .init := rfl
    rw [he] at hev ⊢
    refine goSleepInv exec t.onFailure t.maxAttempts t.steps 0 .init ?_ ev hev
    intro e he'
    simp [RunState.init] at he'

/-- C2 witness: the spec scenario — one step that always fails under
`retry` with `retryCount = 3` makes 3 invocations, sleeps twice, and
the run fails. -/
theorem claim_C2_witness :
    executeSteps (fun _ _ => ExecResult.ok false "") ⟨"t", ["false"], .retry, 3⟩ =
      (false,
       ⟨okEntries (fun _ => "") 0 []
          ++ failEntriesFrom "false" 0 (fun _ => "") 0 3,
        attemptsFrom 0 0 2,
        firstAttempts 0 0 ++ attemptsFrom 0 0 3⟩) :=
  claim_C2.1 (fun _ _ => ExecResult.ok false "") "t" 3 [] "false" []
    (fun _ => "") (fun _ => "")
    (by omega) (fun j hj => absurd hj (Nat.not_lt_zero j)) (fun _ _ _ => rfl)

/-- C9: a task with `onFailure = Retry` and `retryCount = 1` behaves
identically to the same task with `onFailure = Stop` (same success
flag, same aggregated output, same invocations) under every executor
behaviour including exceptions; a single attempt is made per step and
no backoff wait ever occurs. -/
theorem claim_C9 (exec : Executor) (name : String) (steps : List String)
    (rc : Nat) :
    executeSteps exec ⟨name, steps, .retry, 1⟩ =
      executeSteps exec ⟨name, steps, .stop, rc⟩ ∧
    (executeSteps exec ⟨name, steps, .retry, 1⟩).2.sleeps = [] ∧
    (∀ p ∈ (executeSteps exec ⟨name, steps, .retry, 1⟩).2.invocations,
        p.2 = 1) := by
  have h1 : executeSteps exec ⟨name, steps, .retry, 1⟩ =
      runStepsGo exec .retry 1 steps 0 .init := rfl
  have h2 : executeSteps exec ⟨name, steps, .stop, rc⟩ =
      runStepsGo exec .stop 1 steps 0 .init := rfl
  have hs := go_one_state exec .retry steps 0 .init
  refine ⟨?_, ?_, ?_⟩
  · rw [h1, h2, retry1_stop_go]
  · rw [h1, hs.1]
    rfl
  · intro p hp
    rw [h1] at hp
    rcases hs.2 p hp with h | h
    · simp [RunState.init] at h
    · exact h

/-- C9 witness: a concrete always-failing one-step task behaves the
same under `Retry`/`retryCount = 1` as under `Stop`, and its single
recorded invocation is a first attempt. -/
theorem claim_C9_witness :
    executeSteps (fun _ _ => ExecResult.ok false "x") ⟨"t", ["a"], .retry, 1⟩ =
      executeSteps (fun _ _ => ExecResult.ok false "x") ⟨"t", ["a"], .stop, 7⟩ ∧
    ((0, 1) : Nat × Nat).2 = 1 :=
  ⟨(claim_C9 (fun _ _ => ExecResult.ok false "x") "t" ["a"] 7).1,
   (claim_C9 (fun _ _ => ExecResult.ok false "x") "t" ["a"] 7).2.2 (0, 1)
     (by decide)⟩

/-- C5: the command executor never raises to its caller: every
`subprocess.run` behaviour yields a returned pair; on timeout the
result is `succeeded = false` with the fixed timeout message, and on
any launch failure it is `succeeded = false` with the error text in the
output. -/
theorem claim_C5 :
    executeCommand .timeoutExpired =
      (false, "Command execution timed out after 1 hour") ∧
    (∀ msg, executeCommand (.spawnError msg) =
      (false, "Execution error: " ++ msg)) := by
  exact ⟨rfl, fun msg => rfl⟩

/-- C6: for a completed process, `succeeded = true` iff the exit code
is 0, and the output is the captured stdout followed by a
`STDERR:`-marked section exactly when stderr is non-empty. -/
theorem claim_C6 : ∀ (rc : Int) (out err : String),
    executeCommand (.completed rc out err) =
      ((rc == 0 : Bool),
        out ++ if err == "" then "" else "\nSTDERR:\n" ++ err) ∧
    ((executeCommand (.completed rc out err)).1 = true ↔ rc = 0) := by
  intro rc out err
  constructor
  · show ((rc == 0 : Bool), (if out == "" then "" else out) ++ _) = _
    by_cases h : out = "" <;> simp [h]
  · show ((rc == 0 : Bool) = true ↔ rc = 0)
    simp

/-- C7: the dispatcher `_send_notification` calls the sink exactly per
the `notifyOn` policy (`never`: no call; `failure`: call iff the
outcome failed; `all`: always), and when a call is made its
output-inclusion flag follows the `includeOutput` policy (`all`:
include; `never`: exclude; `failure`: include iff the outcome
failed). -/
theorem claim_C7 :
    (∀ inc name success output dur,
        sendNotificationCall .never inc name success output dur = none) ∧
    (∀ inc name output dur,
        sendNotificationCall .failure inc name true output dur = none) ∧
    (∀ inc name output dur,
        (sendNotificationCall .failure inc name false output dur).isSome = true) ∧
    (∀ inc name success output dur,
        (sendNotificationCall .all inc name success output dur).isSome = true) ∧
    (∀ notifyOn inc name success output dur c,
        sendNotificationCall notifyOn inc name success output dur = some c →
        c.includeFlag = (inc == .all || (inc == .failure && !success))) := by
  refine ⟨?_, ?_, ?_, ?_, ?_⟩
  · intro inc name success output dur
    simp [sendNotificationCall]
  · intro inc name output dur
    simp [sendNotificationCall]
  · intro inc name output dur
    cases inc <;> simp [sendNotificationCall]
  · intro inc name success output dur
    cases inc <;> cases success <;> simp [sendNotificationCall]
  · intro notifyOn inc name success output dur c h
    cases notifyOn <;> cases inc <;> cases success <;>
      simp_all [sendNotificationCall, SinkCall.includeFlag] <;>
      (subst h; rfl)

/-- C8: with output inclusion on, the success body appends the output
truncated to 500 characters after the `Output:` label, the failure body
appends the error truncated to 1000 characters after the `Error:`
label, and a 2000-character failure detail contributes exactly its
first 1000 characters. -/
theorem claim_C8 :
    (∀ name dur output, ¬ output = "" →
        (sendTaskSuccess name dur output true).2 =
          ("Task \x27" ++ name ++ "\x27 completed successfully in " ++ dur ++ "s")
            ++ "\n\nOutput:\n" ++ pySlice output 500 ∧
        (pySlice output 500).length ≤ 500) ∧
    (∀ name error dur,
        (sendTaskFailure name error (some dur) true).2 =
          ("Task \x27" ++ name ++ "\x27 failed" ++ " after " ++ dur ++ "s")
            ++ "\n\nError:\n" ++ pySlice error 1000 ∧
        (pySlice error 1000).length ≤ 1000) ∧
    (∀ error : String, error.length = 2000 →
        (pySlice error 1000).data = error.data.take 1000 ∧
        (pySlice error 1000).length = 1000) := by
  refine ⟨?_, ?_, ?_⟩
  · intro name dur output h
    refine ⟨by simp [sendTaskSuccess, h], ?_⟩
    show (output.data.take 500).length ≤ 500
    simp [List.length_take]
  · intro name error dur
    refine ⟨by simp [sendTaskFailure], ?_⟩
    show (error.data.take 1000).length ≤ 1000
    simp [List.length_take]
  · intro error h
    refine ⟨rfl, ?_⟩
    show (error.data.take 1000).length = 1000
    have hl : error.data.length = 2000 := h
    simp [List.length_take, hl]

/-- C8 witness: concrete success body with non-empty output, and a
concrete 2000-character error whose truncated slice has exactly 1000
characters. -/
theorem claim_C8_witness :
    (sendTaskSuccess "t" "1.00" "x" true).2 =
      ("Task \x27" ++ "t" ++ "\x27 completed successfully in " ++ "1.00" ++ "s")
        ++ "\n\nOutput:\n" ++ pySlice "x" 500 ∧
    (pySlice (String.mk (List.replicate 2000 'a')) 1000).length = 1000 :=
  ⟨(claim_C8.1 "t" "1.00" "x" (by simp)).1,
   (claim_C8.2.2 (String.mk (List.replicate 2000 'a'))
      (by show (List.replicate 2000 'a').length = 2000
          rw [List.length_replicate])).2⟩

/-- C10: `Notifier.send` takes the no-delivery `return True` path iff
the constructor's URL list was empty; a notifier built from a non-empty
list of empty strings has zero endpoints added yet still goes through
the delivery path, returning the library's result. -/
theorem claim_C10 : ∀ (l : List String) (lib : SinkRes),
    (notifierSend (mkNotifier (some l)) lib = (.skippedNoUrls, true) ↔ l = []) ∧
    (mkNotifier (some ["", ""])).endpoints = [] ∧
    (∀ b, notifierSend (mkNotifier (some ["", ""])) (SinkRes.ok b) =
      (.delivered, b)) := by
  intro l lib
  refine ⟨?_, by simp [mkNotifier], fun b => by simp [mkNotifier, notifierSend]⟩
  cases l with
  | nil =>
    simp [mkNotifier, notifierSend]
  | cons x xs =>
    simp only [mkNotifier, notifierSend, List.isEmpty_cons]
    cases lib <;> simp

/-- C4: `TaskRunner.run` never propagates an exception: for every step
phase behaviour (including a raised exception) the run completes with a
notification decision, and a raised error is converted into a failure
notification whose output is the error text. -/
theorem claim_C4 : ∀ notifyOn inc name stepsRes dur,
    (∃ r, runModel notifyOn inc name stepsRes dur = Except.ok r) ∧
    (∀ e, stepsRes = Except.error e →
        runModel notifyOn inc name stepsRes dur =
          Except.ok (sendNotificationCall notifyOn inc name false e dur)) := by
  intro notifyOn inc name stepsRes dur
  cases stepsRes with
  | ok p =>
    obtain ⟨s, o⟩ := p
    refine ⟨⟨sendNotificationCall notifyOn inc name s o dur, rfl⟩, ?_⟩
    intro e he
    cases he
  | error e =>
    refine ⟨⟨sendNotificationCall notifyOn inc name false e dur, rfl⟩, ?_⟩
    intro e' he'
    cases he'
    rfl

/-- C4 witness: a step phase raising "boom" yields a completed run with
a failure notification carrying the error text. -/
theorem claim_C4_witness :
    runModel .all .all "t" (Except.error "boom") "1.00" =
      Except.ok (sendNotificationCall .all .all "t" false "boom" "1.00") :=
  (claim_C4 .all .all "t" (Except.error "boom") "1.00").2 "boom" rfl

/-- C7 witness: a failure outcome under `notifyOn = FailureOnly` and
`includeOutput = FailureOnly` dispatches a call whose inclusion flag is
set. -/
theorem claim_C7_witness :
    SinkCall.includeFlag
        (SinkCall.taskFailure "t" "out" "1.00" true) =
      ((IncludeOutput.failure == IncludeOutput.all) ||
        (IncludeOutput.failure == IncludeOutput.failure && !false)) :=
  claim_C7.2.2.2.2 .failure .failure "t" false "out" "1.00"
    (SinkCall.taskFailure "t" "out" "1.00" true) (by decide)

end DockSync
